import Mathlib

set_option linter.unusedSectionVars false

/-!
# Verification of the 4-point plane-snap fit of the 3d-sign-designer

This file gives a shallow embedding of the "4-Point Fit (Plane Snap)" core of
`src/App.jsx` — `orderQuad`, `solveAffine`, `decomposeAffineToTRS`, the
`FourPointFitOverlay` click handler and the `applyFourPointFit` orchestration —
and proves the specified properties about it.

Conventions of the embedding:
* JavaScript numbers are modelled by an arbitrary linear ordered field `K`
  (instantiated at `ℚ` for concrete evaluations and at `ℝ` where the code uses
  transcendental library functions `Math.atan2`, `Math.sin`, … ).
* `Math.atan2` is passed as an explicit function argument `at2` to the parts
  that only ever compare its values (`orderQuad`), and is modelled by
  `Complex.arg` over `ℝ` where its value matters (`decomposeAffineToTRS`).
* JavaScript's `v || d` on numbers (used with `a[c][c] || 1e-9`,
  `(w || 1)`, `(scale.x + scale.y) / 2 || 1`) is modelled by `jsOr`.
* The `n × 2n` augmented Gauss–Jordan array `[m | I]` of the source's `inv`
  is represented as the pair of its two `n × n` halves; every row operation of
  the source acts uniformly on a whole row, i.e. on both halves in lockstep.
* Mutable React state is modelled as a record `AppState`; the fields that the
  fit neither reads nor writes are abstracted into one field `rest : Ω`.
-/

namespace SignFit

open scoped Matrix

variable {K : Type} [LinearOrderedField K] [DecidableEq K]

/-- Point2D `{x, y}`, used for screen points, world points and quad corners. -/
structure Point (K : Type) where
  x : K
  y : K
  deriving DecidableEq

/-- JavaScript `v || dflt` for numeric `v`: `dflt` when `v` is falsy (`0`). -/
def jsOr (v dflt : K) : K := if v = 0 then dflt else v

/-- The x-coordinate `cx` of the centroid in `orderQuad`:
`pts.reduce((s, p) => s + p.x, 0) / pts.length`. -/
def centroidX (pts : List (Point K)) : K :=
  pts.foldl (fun s p => s + p.x) 0 / (pts.length : K)

/-- The y-coordinate `cy` of the centroid in `orderQuad`. -/
def centroidY (pts : List (Point K)) : K :=
  pts.foldl (fun s p => s + p.y) 0 / (pts.length : K)

/-- The sort key of `orderQuad`'s comparator: `atan2(p.y - cy, p.x - cx)`. -/
def quadKey (at2 : K → K → K) (cx cy : K) (p : Point K) : K :=
  at2 (p.y - cy) (p.x - cx)

/-- The `forEach` loop of `orderQuad` that finds the index `start` of the
first point whose `x + y` is a strict running minimum, beginning from
`start = 0, best = Infinity` (`Infinity` is `⊤ : WithTop K`). -/
def bestStartGo : List (Point K) → ℕ → ℕ → WithTop K → ℕ
  | [], _, bi, _ => bi
  | p :: rest, idx, bi, best =>
    if ((p.x + p.y : K) : WithTop K) < best then
      bestStartGo rest (idx + 1) idx ((p.x + p.y : K) : WithTop K)
    else
      bestStartGo rest (idx + 1) bi best

/-- `orderQuad(points)` from the source: copy, sort by ascending
`atan2(y - cy, x - cx)` around the centroid, then return the four entries
starting at the index minimizing `x + y`, wrapping around mod 4. -/
def orderQuad (at2 : K → K → K) (points : List (Point K)) : List (Point K) :=
  let pts := points
  let cx := centroidX pts
  let cy := centroidY pts
  let sorted := List.insertionSort
    (fun a b => quadKey at2 cx cy a ≤ quadKey at2 cx cy b) pts
  let start := bestStartGo sorted 0 0 ⊤
  [sorted.getD start (⟨0, 0⟩ : Point K),
   sorted.getD ((start + 1) % 4) (⟨0, 0⟩ : Point K),
   sorted.getD ((start + 2) % 4) (⟨0, 0⟩ : Point K),
   sorted.getD ((start + 3) % 4) (⟨0, 0⟩ : Point K)]

/-- The `addPoint` click handler of `FourPointFitOverlay`: append
`{x: e.clientX - rect.left, y: e.clientY - rect.top}` and `.slice(0, 4)`. -/
def addPoint (points : List (Point K)) (clientX clientY rectLeft rectTop : K) :
    List (Point K) :=
  (points ++ [(⟨clientX - rectLeft, clientY - rectTop⟩ : Point K)]).take 4

/-- The canonical source corners `src` built inside `applyFourPointFit`:
`[{-W/2, -H/2}, {+W/2, -H/2}, {+W/2, +H/2}, {-W/2, +H/2}]`. -/
def fitSrcQuad (W H : K) : Fin 4 → Point K :=
  ![⟨-W / 2, -H / 2⟩, ⟨W / 2, -H / 2⟩, ⟨W / 2, H / 2⟩, ⟨-W / 2, H / 2⟩]

/-- The source-corner order asserted by the specification: top-left,
top-right, bottom-right, bottom-left of the origin-centered `W × H`
rectangle in a y-up coordinate space.  (Stated from the spec's words, for
comparison with `fitSrcQuad` which is taken from the source.) -/
def specSrcQuad (W H : K) : Fin 4 → Point K :=
  ![⟨-W / 2, H / 2⟩, ⟨W / 2, H / 2⟩, ⟨W / 2, -H / 2⟩, ⟨-W / 2, -H / 2⟩]

/-- The `screenToWorld` closure of `applyFourPointFit`: display pixels to the
world plane, `planeW = 120`, `planeH = planeW * (imgH / imgW)`, with the
world y axis pointing up (`sy = -(pt.y / dispH) * planeH + planeH / 2`). -/
def screenToWorld (dispW dispH imgW imgH : K) (pt : Point K) : Point K :=
  let planeW : K := 120
  let sx := pt.x / dispW * planeW - planeW / 2
  let planeH := planeW * (imgH / imgW)
  let sy := -(pt.y / dispH) * planeH + planeH / 2
  ⟨sx, sy⟩

/-- The 8×6 design matrix `A` of `solveAffine`: for each correspondence `i`
the two rows `[x, y, 1, 0, 0, 0]` and `[0, 0, 0, x, y, 1]`. -/
def designMatrix (src : Fin 4 → Point K) : Matrix (Fin 8) (Fin 6) K :=
  fun i j =>
    let k : Fin 4 := ⟨(i : ℕ) / 2, by have h := i.isLt; omega⟩
    if (i : ℕ) % 2 = 0 then
      if (j : ℕ) = 0 then (src k).x
      else if (j : ℕ) = 1 then (src k).y
      else if (j : ℕ) = 2 then 1 else 0
    else
      if (j : ℕ) = 3 then (src k).x
      else if (j : ℕ) = 4 then (src k).y
      else if (j : ℕ) = 5 then 1 else 0

/-- The 8-entry target vector `B` of `solveAffine`: `X` then `Y` of each
correspondence, interleaved with the rows of `A`. -/
def targetVec (tgt : Fin 4 → Point K) : Fin 8 → K :=
  fun i =>
    let k : Fin 4 := ⟨(i : ℕ) / 2, by have h := i.isLt; omega⟩
    if (i : ℕ) % 2 = 0 then (tgt k).x else (tgt k).y

/-- The diagonal of the Gram matrix `AᵗA` of the design matrix of the four
corners of an origin-centered `W × H` rectangle. -/
def gramDiag (W H : K) : Fin 6 → K :=
  ![W ^ 2, H ^ 2, 4, W ^ 2, H ^ 2, 4]

/-- Row swap `[a[c], a[r]] = [a[r], a[c]]` of the source's `inv`, acting on
one `n × n` half of the augmented array. -/
def swapRows {n : ℕ} (A : Matrix (Fin n) (Fin n) K) (c r : Fin n) :
    Matrix (Fin n) (Fin n) K :=
  fun i => if i = c then A r else if i = r then A c else A i

/-- One comparison of the partial-pivot search of the source's `inv`:
`if (Math.abs(a[i][c]) > Math.abs(a[r][c])) r = i`. -/
def pivotFoldF {n : ℕ} (L : Matrix (Fin n) (Fin n) K) (c : Fin n)
    (r i : Fin n) : Fin n :=
  if |L i c| > |L r c| then i else r

/-- The partial-pivot search of the source's `inv`: starting from `r = c`,
replace `r` by `i` whenever `|a[i][c]| > |a[r][c]|`, for `i = c+1 … n-1`. -/
def pivotIndex {n : ℕ} (L : Matrix (Fin n) (Fin n) K) (c : Fin n) : Fin n :=
  ((List.finRange n).filter (fun i => c < i)).foldl (pivotFoldF L c) c

/-- The pivot fallback constant `1e-9` of the source's `inv`. -/
def gjEps : K := 1 / 10 ^ 9

/-- The divisor `d = a[c][c] || 1e-9` used at elimination column `c`
(after the pivot row swap), where `L` is the left half before the swap. -/
def gjDivisor {n : ℕ} (L : Matrix (Fin n) (Fin n) K) (c : Fin n) : K :=
  jsOr (swapRows L c (pivotIndex L c) c c) gjEps

/-- Scaling row `c` by `1 / d`: `for j in 0..2n: a[c][j] /= d` (one half). -/
def scaleRow {n : ℕ} (A : Matrix (Fin n) (Fin n) K) (c : Fin n) (d : K) :
    Matrix (Fin n) (Fin n) K :=
  fun i j => if i = c then A i j / d else A i j

/-- The elimination sweep over all rows `i ≠ c`:
`f = a[i][c]; for j: a[i][j] -= f * a[c][j]` (one half; the factors `f` are
read from the left half and passed in explicitly). -/
def elimRows {n : ℕ} (A : Matrix (Fin n) (Fin n) K) (c : Fin n)
    (f : Fin n → K) : Matrix (Fin n) (Fin n) K :=
  fun i j => if i = c then A i j else A i j - f i * A c j

/-- One column step `c` of the source's Gauss–Jordan `inv`, acting on the
pair (left half, right half) of the augmented array. -/
def gjStep {n : ℕ}
    (p : Matrix (Fin n) (Fin n) K × Matrix (Fin n) (Fin n) K) (c : Fin n) :
    Matrix (Fin n) (Fin n) K × Matrix (Fin n) (Fin n) K :=
  let r := pivotIndex p.1 c
  let d := gjDivisor p.1 c
  let L2 := scaleRow (swapRows p.1 c r) c d
  let R2 := scaleRow (swapRows p.2 c r) c d
  (elimRows L2 c (fun i => L2 i c), elimRows R2 c (fun i => L2 i c))

/-- The source's `inv(m)`: run the column steps `c = 0 … n-1` on `[m | I]`
and return the right half. -/
def gjInv {n : ℕ} (m : Matrix (Fin n) (Fin n) K) : Matrix (Fin n) (Fin n) K :=
  ((List.finRange n).foldl gjStep (m, 1)).2

/-- Loop invariant of the Gauss–Jordan elimination after the column steps
`0 … c-1`: the left half is the accumulated row operations applied to the
input (`p.1 = p.2 * M`), the accumulated row operations are invertible, and
the first `c` columns of the left half have been reduced to the identity. -/
def GJInvariant {n : ℕ} (M : Matrix (Fin n) (Fin n) K) (c : ℕ)
    (p : Matrix (Fin n) (Fin n) K × Matrix (Fin n) (Fin n) K) : Prop :=
  p.1 = p.2 * M ∧ IsUnit p.2.det ∧
  ∀ i j : Fin n, (j : ℕ) < c → p.1 i j = if i = j then 1 else 0

/-- The parameter vector `X = inv(AᵗA) * (Aᵗ * B)` computed by `solveAffine`. -/
def solveAffineX (src tgt : Fin 4 → Point K) : Fin 6 → K :=
  let A := designMatrix src
  let B := targetVec tgt
  Matrix.mulVec (gjInv (Aᵀ * A)) (Matrix.mulVec Aᵀ B)

/-- AffineParams `{a, b, c, d, e, f}`: the affine map
`X = a*x + b*y + c`, `Y = d*x + e*y + f`. -/
structure AffineParams (K : Type) where
  a : K
  b : K
  c : K
  d : K
  e : K
  f : K
  deriving DecidableEq

/-- `solveAffine(from, to)`: destructure `X` into `{a, b, c, d, e, f}`. -/
def solveAffine (src tgt : Fin 4 → Point K) : AffineParams K :=
  let X := solveAffineX src tgt
  ⟨X 0, X 1, X 2, X 3, X 4, X 5⟩

/-- Total squared residual of candidate parameters `u` for the linear system
`A u = B`: the quantity minimized by the least-squares solution. -/
def residSq {p q : ℕ} (A : Matrix (Fin p) (Fin q) K) (B : Fin p → K)
    (u : Fin q → K) : K :=
  ∑ i, (Matrix.mulVec A u i - B i) ^ 2

/-- Invertibility of the normal-equation matrix `AᵗA` of `solveAffine`. -/
def gramInvertible (src : Fin 4 → Point K) : Prop :=
  IsUnit ((designMatrix src)ᵀ * designMatrix src).det

/-- The least-squares parameter vector `(AᵗA)⁻¹ Aᵗ B` (in terms of the
Mathlib matrix inverse) that `solveAffine` is claimed to compute. -/
noncomputable def normalSolution (src tgt : Fin 4 → Point K) : Fin 6 → K :=
  Matrix.mulVec ((designMatrix src)ᵀ * designMatrix src)⁻¹
    (Matrix.mulVec (designMatrix src)ᵀ (targetVec tgt))

/-- Three-component vector, modelling `THREE.Vector3`. -/
structure Vec3 where
  x : ℝ
  y : ℝ
  z : ℝ

/-- Pose: decomposed translation, in-plane rotation and per-axis scale. -/
structure Pose where
  position : Vec3
  rotationZ : ℝ
  scale : Vec3

/-- `Math.atan2(y, x)` over the reals, i.e. the argument of `x + y·i`
in `(-π, π]`. -/
noncomputable def atan2 (y x : ℝ) : ℝ := Complex.arg (x + y * Complex.I)

/-- `Math.hypot(a, b)` over the reals. -/
noncomputable def hypot (a b : ℝ) : ℝ := Real.sqrt (a ^ 2 + b ^ 2)

/-- `decomposeAffineToTRS({a,b,c,d,e,f})` from the source: translation
`(c, f, 0)`, scales `hypot(a, d)` and `hypot(b, e)`, rotation `atan2(d, a)`. -/
noncomputable def decomposeAffineToTRS (p : AffineParams ℝ) : Pose :=
  let position : Vec3 := ⟨p.c, p.f, 0⟩
  let sx := hypot p.a p.d
  let sy := hypot p.b p.e
  let rotationZ := atan2 p.d p.a
  ⟨position, rotationZ, ⟨sx, sy, 1⟩⟩

/-- The slice of the application state that `applyFourPointFit` reads or
writes, plus one abstract field `rest` standing for every other field of the
store (text, colors, tool selection, …). -/
structure AppState (Ω : Type) where
  fitPoints : List (Point ℝ)
  fitMode : Bool
  signTX : ℝ
  signTY : ℝ
  signRZ : ℝ
  signScale : ℝ
  size : ℝ
  imgW : ℝ
  imgH : ℝ
  rest : Ω

/-- The Pose solved by `applyFourPointFit` once it has 4 points: order the
picked points, build the padded source rectangle (`w`, `h` are the values of
`getTextOnlyWorldSize()`, `dispW`, `dispH` the display size), map the ordered
points through `screenToWorld`, solve, decompose. -/
noncomputable def fitPose {Ω : Type} (dispW dispH w h : ℝ) (S : AppState Ω) :
    Pose :=
  let q := orderQuad atan2 S.fitPoints
  let pad := S.size * 0.5
  let W := jsOr w 1 + pad * 2
  let H := jsOr h 1 + pad * 2
  let src := fitSrcQuad W H
  let tgt : Fin 4 → Point ℝ := fun k =>
    screenToWorld dispW dispH S.imgW S.imgH (q.getD (k : ℕ) (⟨0, 0⟩ : Point ℝ))
  let aff := solveAffine src tgt
  decomposeAffineToTRS aff

/-- `applyFourPointFit`: return unchanged unless exactly 4 points are
present, otherwise solve and commit the Pose, the scale floor, the exit from
fit mode and the point reset in one `set({...})`. -/
noncomputable def applyFourPointFit {Ω : Type} (dispW dispH w h : ℝ)
    (S : AppState Ω) : AppState Ω :=
  if S.fitPoints.length ≠ 4 then S
  else
    let pose := fitPose dispW dispH w h S
    { S with
      signTX := pose.position.x
      signTY := pose.position.y
      signRZ := pose.rotationZ
      signScale := max 0.05 (jsOr ((pose.scale.x + pose.scale.y) / 2) 1)
      fitMode := false
      fitPoints := [] }

/-- The similarity transform of claim C2: rotate by `θ` about the origin,
scale uniformly by `s`, translate by `(dx, dy)`. -/
noncomputable def similarity (s θ dx dy : ℝ) (p : Point ℝ) : Point ℝ :=
  ⟨s * (Real.cos θ * p.x - Real.sin θ * p.y) + dx,
   s * (Real.sin θ * p.x + Real.cos θ * p.y) + dy⟩

/-! ## Basic facts about the JavaScript helpers -/

theorem jsOr_ne_zero (v dflt : K) (h : dflt ≠ 0) : jsOr v dflt ≠ 0 := by
  unfold jsOr
  split_ifs with hv
  · exact h
  · exact hv

theorem gjEps_ne_zero : (gjEps : K) ≠ 0 := by
  unfold gjEps
  positivity

/-- Every division performed by the Gauss–Jordan elimination of `solveAffine`
divides by a nonzero value: a vanishing pivot falls back to `1e-9`. -/
theorem gjDivisor_ne_zero {n : ℕ} (L : Matrix (Fin n) (Fin n) K) (c : Fin n) :
    gjDivisor L c ≠ 0 :=
  jsOr_ne_zero _ _ gjEps_ne_zero

/-! ## Row operations as left multiplications -/

section GaussJordan

variable {n : ℕ}

theorem one_row_dot (a : Fin n) (A : Matrix (Fin n) (Fin n) K) (j : Fin n) :
    ∑ x, (1 : Matrix (Fin n) (Fin n) K) a x * A x j = A a j := by
  simp [Matrix.one_apply, ite_mul, Finset.sum_ite_eq]

theorem swapRows_eq_mul (A : Matrix (Fin n) (Fin n) K) (c r : Fin n) :
    swapRows A c r = swapRows 1 c r * A := by
  funext i j
  rw [Matrix.mul_apply]
  simp only [swapRows, ite_apply]
  by_cases hic : i = c <;> by_cases hir : i = r <;> by_cases hrc : r = c <;>
    simp [hic, hir, hrc, one_row_dot]

theorem swapRows_one_mul_self (c r : Fin n) :
    swapRows (1 : Matrix (Fin n) (Fin n) K) c r * swapRows 1 c r = 1 := by
  rw [← swapRows_eq_mul]
  funext i j
  by_cases hic : i = c <;> by_cases hir : i = r <;>
    simp [swapRows, hic, hir, Matrix.one_apply] <;> aesop

theorem scaleRow_eq_mul (A : Matrix (Fin n) (Fin n) K) (c : Fin n) (d : K) :
    scaleRow A c d = scaleRow 1 c d * A := by
  funext i j
  by_cases hic : i = c <;>
    simp [scaleRow, Matrix.mul_apply, hic, Matrix.one_apply, div_eq_mul_inv,
      ite_mul, Finset.sum_ite_eq, mul_comm]

theorem scaleRow_one_mul_inv (c : Fin n) (d : K) (hd : d ≠ 0) :
    scaleRow (1 : Matrix (Fin n) (Fin n) K) c d * scaleRow 1 c (1 / d) = 1 := by
  rw [← scaleRow_eq_mul]
  funext i j
  by_cases hic : i = c <;>
    simp [scaleRow, hic, Matrix.one_apply, div_eq_mul_inv, hd]

theorem elimRows_eq_mul (A : Matrix (Fin n) (Fin n) K) (c : Fin n)
    (f : Fin n → K) : elimRows A c f = elimRows 1 c f * A := by
  funext i j
  by_cases hic : i = c <;>
    simp [elimRows, Matrix.mul_apply, hic, Matrix.one_apply, sub_mul,
      Finset.sum_sub_distrib, ite_mul, Finset.sum_ite_eq, mul_ite, mul_assoc]

theorem elimRows_one_mul_neg (c : Fin n) (f : Fin n → K) :
    elimRows (1 : Matrix (Fin n) (Fin n) K) c f * elimRows 1 c (-f) = 1 := by
  rw [← elimRows_eq_mul]
  funext i j
  by_cases hic : i = c <;>
    simp [elimRows, hic, Matrix.one_apply, Pi.neg_apply] <;> split_ifs <;> ring

theorem isUnit_det_of_mul_eq_one {A B : Matrix (Fin n) (Fin n) K}
    (h : A * B = 1) : IsUnit A.det := by
  have hdet := congrArg Matrix.det h
  rw [Matrix.det_mul, Matrix.det_one] at hdet
  exact isUnit_of_mul_eq_one _ _ hdet

/-! ## The partial-pivot search -/

theorem pivotFold_spec (L : Matrix (Fin n) (Fin n) K) (c : Fin n) :
    ∀ (ls : List (Fin n)) (r0 : Fin n),
      (ls.foldl (pivotFoldF L c) r0 = r0 ∨ ls.foldl (pivotFoldF L c) r0 ∈ ls) ∧
      |L r0 c| ≤ |L (ls.foldl (pivotFoldF L c) r0) c| ∧
      ∀ i ∈ ls, |L i c| ≤ |L (ls.foldl (pivotFoldF L c) r0) c| := by
  intro ls
  induction ls with
  | nil => exact fun r0 => ⟨Or.inl rfl, le_refl _, by simp⟩
  | cons a tl ih =>
    intro r0
    rw [List.foldl_cons]
    obtain ⟨hmem, hle, hall⟩ := ih (pivotFoldF L c r0 a)
    have hstep : |L r0 c| ≤ |L (pivotFoldF L c r0 a) c| := by
      unfold pivotFoldF
      split_ifs with hgt
      · exact le_of_lt hgt
      · exact le_refl _
    have hstepa : |L a c| ≤ |L (pivotFoldF L c r0 a) c| := by
      unfold pivotFoldF
      split_ifs with hgt
      · exact le_refl _
      · exact not_lt.mp hgt
    refine ⟨?_, le_trans hstep hle, ?_⟩
    · rcases hmem with h | h
      · rw [h]
        unfold pivotFoldF
        split_ifs
        · exact Or.inr (List.mem_cons_self a tl)
        · exact Or.inl rfl
      · exact Or.inr (List.mem_cons_of_mem a h)
    · intro i hi
      rcases List.mem_cons.mp hi with rfl | hi
      · exact le_trans hstepa hle
      · exact hall i hi

theorem pivotIndex_spec (L : Matrix (Fin n) (Fin n) K) (c : Fin n) :
    c ≤ pivotIndex L c ∧ ∀ i, c ≤ i → |L i c| ≤ |L (pivotIndex L c) c| := by
  have h := pivotFold_spec L c ((List.finRange n).filter (fun i => c < i)) c
  unfold pivotIndex
  constructor
  · rcases h.1 with heq | hmem
    · rw [heq]
    · have := (List.mem_filter.mp hmem).2
      exact le_of_lt (by simpa using this)
  · intro i hic
    rcases eq_or_lt_of_le hic with heq | hlt
    · rw [← heq]
      exact h.2.1
    · exact h.2.2 i (List.mem_filter.mpr ⟨List.mem_finRange i, by simpa using hlt⟩)

/-! ## Existence of a nonzero pivot for invertible left halves -/

theorem exists_pivot_nonzero {L : Matrix (Fin n) (Fin n) K}
    (hL : IsUnit L.det) {c : Fin n}
    (hcols : ∀ i j : Fin n, (j : ℕ) < (c : ℕ) → L i j = if i = j then 1 else 0) :
    ∃ i : Fin n, c ≤ i ∧ L i c ≠ 0 := by
  by_contra hcon
  push_neg at hcon
  set v : Fin n → K :=
    fun j => if j = c then 1 else if (j : ℕ) < (c : ℕ) then -(L j c) else 0 with hv
  have hv0 : Matrix.mulVec L v = 0 := by
    funext i
    simp only [Matrix.mulVec, Matrix.dotProduct, Pi.zero_apply]
    by_cases hi : c ≤ i
    · apply Finset.sum_eq_zero
      intro j _
      by_cases hjc : j = c
      · subst hjc
        rw [hcon i hi, zero_mul]
      · by_cases hjlt : (j : ℕ) < (c : ℕ)
        · have hij : i ≠ j := by
            intro hij
            subst hij
            exact absurd (lt_of_lt_of_le hjlt hi) (lt_irrefl _)
          rw [hcols i j hjlt, if_neg hij, zero_mul]
        · simp only [hv]
          rw [if_neg hjc, if_neg hjlt, mul_zero]
    · push_neg at hi
      have hic : i ≠ c := by
        intro hic
        subst hic
        exact absurd hi (lt_irrefl _)
      have hfun : ∀ j, L i j * v j =
          (if j = c then L i c else 0) + (if j = i then -(L i c) else 0) := by
        intro j
        by_cases hjc : j = c
        · subst hjc
          simp [hv, Ne.symm hic]
        · by_cases hji : j = i
          · have hjlt : (j : ℕ) < (c : ℕ) := by rw [hji]; exact hi
            rw [hcols i j hjlt, if_pos hji.symm]
            simp [hv, hjc, hjlt, hji, hic, hi]
          · by_cases hjlt : (j : ℕ) < (c : ℕ)
            · rw [hcols i j hjlt, if_neg (fun hh => hji hh.symm), zero_mul]
              simp [hjc, hji]
            · simp only [hv]
              rw [if_neg hjc, if_neg hjlt, mul_zero, if_neg hjc, if_neg hji,
                add_zero]
      rw [Finset.sum_congr rfl (fun j _ => hfun j), Finset.sum_add_distrib]
      simp [Finset.sum_ite_eq]
  have hvc : v c = 1 := by simp [hv]
  have hzero : v = 0 := by
    have h1 : Matrix.mulVec (L⁻¹ * L) v = v := by
      rw [Matrix.nonsing_inv_mul L hL, Matrix.one_mulVec]
    rw [← Matrix.mulVec_mulVec, hv0, Matrix.mulVec_zero] at h1
    exact h1.symm
  rw [hzero] at hvc
  simp at hvc

/-! ## One elimination step preserves the invariant -/

theorem swapRows_apply (A : Matrix (Fin n) (Fin n) K) (c r i j : Fin n) :
    swapRows A c r i j = if i = c then A r j else if i = r then A c j else A i j := by
  unfold swapRows
  split_ifs <;> rfl

theorem gjStep_invariant {M : Matrix (Fin n) (Fin n) K} (hM : IsUnit M.det)
    (c : Fin n) (p : Matrix (Fin n) (Fin n) K × Matrix (Fin n) (Fin n) K)
    (h : GJInvariant M (c : ℕ) p) :
    GJInvariant M ((c : ℕ) + 1) (gjStep p c) := by
  obtain ⟨hLR, hR, hcols⟩ := h
  have hLdet : IsUnit p.1.det := by
    rw [hLR, Matrix.det_mul]
    exact hR.mul hM
  obtain ⟨i0, hi0c, hi0⟩ := exists_pivot_nonzero hLdet hcols
  obtain ⟨hcr, hmax⟩ := pivotIndex_spec p.1 c
  set r := pivotIndex p.1 c with hrdef
  have hrc : p.1 r c ≠ 0 := by
    have h1 : 0 < |p.1 i0 c| := abs_pos.mpr hi0
    exact abs_pos.mp (lt_of_lt_of_le h1 (hmax i0 hi0c))
  have hdval : gjDivisor p.1 c = p.1 r c := by
    unfold gjDivisor jsOr
    rw [← hrdef, swapRows_apply, if_pos rfl, if_neg hrc]
  set d := gjDivisor p.1 c with hddef
  have hdne : d ≠ 0 := by rw [hddef]; exact gjDivisor_ne_zero _ _
  set L1 := swapRows p.1 c r with hL1
  set R1 := swapRows p.2 c r with hR1
  set L2 := scaleRow L1 c d with hL2
  set R2 := scaleRow R1 c d with hR2
  set f : Fin n → K := fun i => L2 i c with hf
  have hstep : gjStep p c = (elimRows L2 c f, elimRows R2 c f) := rfl
  -- entry bookkeeping
  have hL1cols : ∀ i j : Fin n, (j : ℕ) < (c : ℕ) →
      L1 i j = if i = j then 1 else 0 := by
    intro i j hj
    have hjc : j ≠ c := Fin.ne_of_val_ne (Nat.ne_of_lt hj)
    have hjr : j ≠ r := Fin.ne_of_val_ne (Nat.ne_of_lt (lt_of_lt_of_le hj hcr))
    rw [hL1, swapRows_apply]
    by_cases h1 : i = c
    · rw [h1, if_pos rfl, hcols r j hj, if_neg (Ne.symm hjr),
        if_neg (Ne.symm hjc)]
    · rw [if_neg h1]
      by_cases h2 : i = r
      · rw [h2, if_pos rfl, hcols c j hj, if_neg (Ne.symm hjc),
          if_neg (Ne.symm hjr)]
      · rw [if_neg h2]
        exact hcols i j hj
  have hL1cc : L1 c c = p.1 r c := by
    rw [hL1, swapRows_apply, if_pos rfl]
  have hL2cc : L2 c c = 1 := by
    rw [hL2]
    show (if c = c then L1 c c / d else L1 c c) = 1
    rw [if_pos rfl, hL1cc, hdval]
    exact div_self hrc
  have hL2cols : ∀ i j : Fin n, (j : ℕ) < (c : ℕ) →
      L2 i j = if i = j then 1 else 0 := by
    intro i j hj
    have hjc : j ≠ c := Fin.ne_of_val_ne (Nat.ne_of_lt hj)
    rw [hL2]
    show (if i = c then L1 i j / d else L1 i j) = _
    by_cases h1 : i = c
    · rw [if_pos h1, hL1cols i j hj, h1, if_neg (Ne.symm hjc), zero_div]
    · rw [if_neg h1]
      exact hL1cols i j hj
  have hcolsNew : ∀ i j : Fin n, (j : ℕ) < (c : ℕ) + 1 →
      elimRows L2 c f i j = if i = j then 1 else 0 := by
    intro i j hj
    show (if i = c then L2 i j else L2 i j - f i * L2 c j) = _
    rcases Nat.lt_succ_iff_lt_or_eq.mp hj with hjlt | hjeq
    · have hjc : j ≠ c := Fin.ne_of_val_ne (Nat.ne_of_lt hjlt)
      by_cases hic : i = c
      · rw [if_pos hic, hL2cols i j hjlt, hic]
      · rw [if_neg hic, hL2cols c j hjlt, if_neg (Ne.symm hjc), mul_zero,
          sub_zero]
        exact hL2cols i j hjlt
    · have hjc : j = c := Fin.ext hjeq
      by_cases hic : i = c
      · rw [if_pos hic, hjc, hic, hL2cc, if_pos rfl]
      · rw [if_neg hic, hjc, hL2cc, mul_one, if_neg hic, hf]
        show L2 i c - L2 i c = 0
        exact sub_self _
  -- product forms
  have hL3 : elimRows L2 c f =
      elimRows 1 c f * (scaleRow 1 c d * (swapRows 1 c r * p.1)) := by
    rw [← swapRows_eq_mul, ← scaleRow_eq_mul, ← elimRows_eq_mul, ← hL1, ← hL2]
  have hR3 : elimRows R2 c f =
      elimRows 1 c f * (scaleRow 1 c d * (swapRows 1 c r * p.2)) := by
    rw [← swapRows_eq_mul, ← scaleRow_eq_mul, ← elimRows_eq_mul, ← hR1, ← hR2]
  rw [hstep]
  refine ⟨?_, ?_, hcolsNew⟩
  · show elimRows L2 c f = elimRows R2 c f * M
    calc elimRows L2 c f
        = elimRows 1 c f * (scaleRow 1 c d * (swapRows 1 c r * p.1)) := hL3
      _ = elimRows 1 c f * (scaleRow 1 c d * (swapRows 1 c r * (p.2 * M))) := by
          rw [← hLR]
      _ = elimRows 1 c f * (scaleRow 1 c d * (swapRows 1 c r * p.2)) * M := by
          simp only [Matrix.mul_assoc]
      _ = elimRows R2 c f * M := by rw [← hR3]
  · show IsUnit (elimRows R2 c f).det
    rw [hR3, Matrix.det_mul, Matrix.det_mul, Matrix.det_mul]
    exact (isUnit_det_of_mul_eq_one (elimRows_one_mul_neg c f)).mul
      ((isUnit_det_of_mul_eq_one (scaleRow_one_mul_inv c d hdne)).mul
        ((isUnit_det_of_mul_eq_one (swapRows_one_mul_self c r)).mul hR))

/-! ## Correctness of the full elimination -/

theorem gjFoldAux {M : Matrix (Fin n) (Fin n) K} (hM : IsUnit M.det) :
    ∀ (m k : ℕ) (p : Matrix (Fin n) (Fin n) K × Matrix (Fin n) (Fin n) K),
      k + m = n → GJInvariant M k p →
      GJInvariant M n (((List.finRange n).drop k).foldl gjStep p) := by
  intro m
  induction m with
  | zero =>
    intro k p hk hp
    have hkn : k = n := by omega
    rw [hkn] at hp
    have hnil : (List.finRange n).drop n = [] :=
      List.drop_eq_nil_of_le (by simp)
    rw [hkn, hnil, List.foldl_nil]
    exact hp
  | succ m ih =>
    intro k p hk hp
    have hkn : k < n := by omega
    have hlen : k < (List.finRange n).length := by simpa using hkn
    have hdrop : (List.finRange n).drop k =
        (⟨k, hkn⟩ : Fin n) :: (List.finRange n).drop (k + 1) := by
      rw [List.drop_eq_getElem_cons hlen]
      congr 1
      simp
    rw [hdrop, List.foldl_cons]
    exact ih (k + 1) (gjStep p ⟨k, hkn⟩) (by omega)
      (gjStep_invariant hM ⟨k, hkn⟩ p hp)

theorem gjInv_mul_self {M : Matrix (Fin n) (Fin n) K} (hM : IsUnit M.det) :
    gjInv M * M = 1 := by
  have h0 : GJInvariant M 0 (M, (1 : Matrix (Fin n) (Fin n) K)) :=
    ⟨(Matrix.one_mul M).symm, by simp, fun i j hj => absurd hj (Nat.not_lt_zero _)⟩
  have hfin := gjFoldAux hM n 0 (M, 1) (by omega) h0
  rw [List.drop_zero] at hfin
  obtain ⟨hq1, hq2, hq3⟩ := hfin
  have hqL : ((List.finRange n).foldl gjStep (M, 1)).1 = 1 := by
    funext i j
    rw [hq3 i j j.isLt, Matrix.one_apply]
  rw [hqL] at hq1
  exact hq1.symm

theorem gjInv_eq_inv {M : Matrix (Fin n) (Fin n) K} (hM : IsUnit M.det) :
    gjInv M = M⁻¹ :=
  (Matrix.inv_eq_left_inv (gjInv_mul_self hM)).symm

end GaussJordan

/-! ## Least squares through the normal equations -/

theorem least_squares_min {p q : ℕ} (A : Matrix (Fin p) (Fin q) K)
    (B : Fin p → K) (xh : Fin q → K)
    (hx : Matrix.mulVec Aᵀ (Matrix.mulVec A xh - B) = 0)
    (u : Fin q → K) : residSq A B xh ≤ residSq A B u := by
  have hcross :
      ∑ i, Matrix.mulVec A (u - xh) i * (Matrix.mulVec A xh - B) i = 0 := by
    have h1 : ∑ i, Matrix.mulVec A (u - xh) i * (Matrix.mulVec A xh - B) i
        = Matrix.dotProduct (Matrix.mulVec A xh - B)
            (Matrix.mulVec A (u - xh)) := by
      unfold Matrix.dotProduct
      apply Finset.sum_congr rfl
      intro i _
      ring
    rw [h1, Matrix.dotProduct_mulVec, ← Matrix.mulVec_transpose, hx,
      Matrix.zero_dotProduct]
  have hAu : ∀ i, Matrix.mulVec A u i =
      Matrix.mulVec A (u - xh) i + Matrix.mulVec A xh i := by
    intro i
    rw [Matrix.mulVec_sub, Pi.sub_apply]
    ring
  unfold residSq
  have key : ∑ i, (Matrix.mulVec A u i - B i) ^ 2
      = ∑ i, Matrix.mulVec A (u - xh) i ^ 2
        + ∑ i, (Matrix.mulVec A xh i - B i) ^ 2 := by
    calc ∑ i, (Matrix.mulVec A u i - B i) ^ 2
        = ∑ i, (Matrix.mulVec A (u - xh) i ^ 2
            + (Matrix.mulVec A xh i - B i) ^ 2
            + 2 * (Matrix.mulVec A (u - xh) i * (Matrix.mulVec A xh - B) i)) := by
          apply Finset.sum_congr rfl
          intro i _
          rw [hAu i, Pi.sub_apply]
          ring
      _ = ∑ i, (Matrix.mulVec A (u - xh) i ^ 2
            + (Matrix.mulVec A xh i - B i) ^ 2)
            + 2 * ∑ i, Matrix.mulVec A (u - xh) i * (Matrix.mulVec A xh - B) i := by
          rw [Finset.sum_add_distrib, Finset.mul_sum]
      _ = _ := by
          rw [hcross, Finset.sum_add_distrib]
          ring
  rw [key]
  exact le_add_of_nonneg_left (Finset.sum_nonneg fun i _ => sq_nonneg _)

/-! ## The solver returns the normal-equation solution -/

theorem solveAffineX_eq (src tgt : Fin 4 → Point K)
    (hdet : gramInvertible src) :
    solveAffineX src tgt = normalSolution src tgt := by
  unfold gramInvertible at hdet
  simp only [solveAffineX, normalSolution]
  rw [gjInv_eq_inv hdet]

theorem solveAffineX_normal (src tgt : Fin 4 → Point K)
    (hdet : gramInvertible src) :
    Matrix.mulVec (designMatrix src)ᵀ
      (Matrix.mulVec (designMatrix src) (solveAffineX src tgt)
        - targetVec tgt) = 0 := by
  rw [Matrix.mulVec_sub, solveAffineX_eq src tgt hdet]
  unfold gramInvertible at hdet
  unfold normalSolution
  rw [Matrix.mulVec_mulVec, Matrix.mulVec_mulVec,
    Matrix.mul_nonsing_inv _ hdet, Matrix.one_mulVec, sub_self]

/-- If the system is exactly solvable by `v`, the solver returns `v`. -/
theorem solveAffineX_exact (src tgt : Fin 4 → Point K) (v : Fin 6 → K)
    (hdet : gramInvertible src)
    (hv : Matrix.mulVec (designMatrix src) v = targetVec tgt) :
    solveAffineX src tgt = v := by
  rw [solveAffineX_eq src tgt hdet]
  unfold gramInvertible at hdet
  unfold normalSolution
  rw [← hv, Matrix.mulVec_mulVec, Matrix.mulVec_mulVec, Matrix.mul_assoc,
    Matrix.nonsing_inv_mul _ hdet, Matrix.one_mulVec]

/-! ## The Gram matrix of a centered rectangle's corners -/

theorem fin4_mk_zero (h : 0 < 4) : (⟨0, h⟩ : Fin 4) = 0 := rfl

theorem fin4_mk_one (h : 1 < 4) : (⟨1, h⟩ : Fin 4) = 1 := rfl

theorem fin4_mk_two (h : 2 < 4) : (⟨2, h⟩ : Fin 4) = 2 := rfl

theorem fin4_mk_three (h : 3 < 4) : (⟨3, h⟩ : Fin 4) = 3 := rfl

set_option maxHeartbeats 3200000 in
theorem gram_eq_diagonal (W H : K) (q : Fin 4 → Point K)
    (hxx : (q 0).x * (q 0).x + (q 1).x * (q 1).x + (q 2).x * (q 2).x
      + (q 3).x * (q 3).x = W ^ 2)
    (hyy : (q 0).y * (q 0).y + (q 1).y * (q 1).y + (q 2).y * (q 2).y
      + (q 3).y * (q 3).y = H ^ 2)
    (hx : (q 0).x + (q 1).x + (q 2).x + (q 3).x = 0)
    (hy : (q 0).y + (q 1).y + (q 2).y + (q 3).y = 0)
    (hxy : (q 0).x * (q 0).y + (q 1).x * (q 1).y + (q 2).x * (q 2).y
      + (q 3).x * (q 3).y = 0) :
    (designMatrix q)ᵀ * designMatrix q =
      Matrix.diagonal (gramDiag W H) := by
  ext a b
  rw [Matrix.mul_apply]
  simp only [Matrix.transpose_apply]
  fin_cases a <;> fin_cases b <;>
    norm_num [Fin.sum_univ_succ, designMatrix, Fin.val_succ, fin4_mk_zero,
      fin4_mk_one, fin4_mk_two, fin4_mk_three, Matrix.diagonal_apply,
      gramDiag, Fin.mk.injEq, Fin.ext_iff] <;>
    first
      | linear_combination hxx
      | linear_combination hyy
      | linear_combination hx
      | linear_combination hy
      | linear_combination hxy

theorem gram_det_isUnit (W H : K) (hW : W ≠ 0) (hH : H ≠ 0) :
    IsUnit (Matrix.diagonal (gramDiag W H)).det := by
  rw [Matrix.det_diagonal, isUnit_iff_ne_zero]
  norm_num [gramDiag, Fin.prod_univ_succ, pow_eq_zero_iff, hW, hH]

theorem gram_isUnit (W H : K) (q : Fin 4 → Point K)
    (hxx : (q 0).x * (q 0).x + (q 1).x * (q 1).x + (q 2).x * (q 2).x
      + (q 3).x * (q 3).x = W ^ 2)
    (hyy : (q 0).y * (q 0).y + (q 1).y * (q 1).y + (q 2).y * (q 2).y
      + (q 3).y * (q 3).y = H ^ 2)
    (hx : (q 0).x + (q 1).x + (q 2).x + (q 3).x = 0)
    (hy : (q 0).y + (q 1).y + (q 2).y + (q 3).y = 0)
    (hxy : (q 0).x * (q 0).y + (q 1).x * (q 1).y + (q 2).x * (q 2).y
      + (q 3).x * (q 3).y = 0)
    (hW : W ≠ 0) (hH : H ≠ 0) :
    gramInvertible q := by
  unfold gramInvertible
  rw [gram_eq_diagonal W H q hxx hyy hx hy hxy]
  exact gram_det_isUnit W H hW hH

/-- C1: for any 4 source and 4 target points with `AᵗA` invertible,
`solveAffine` returns exactly the normal-equation solution
`(AᵗA)⁻¹ Aᵗ B` — `A` being the 8×6 design matrix with rows
`[x, y, 1, 0, 0, 0]` and `[0, 0, 0, x, y, 1]` per correspondence and `B` the
interleaved target coordinates — packaged as `{a, b, c, d, e, f}`, and that
vector minimizes the total squared residual over all parameter vectors. -/
theorem C1_solveAffine_least_squares (src tgt : Fin 4 → Point K)
    (hdet : gramInvertible src) :
    solveAffineX src tgt = normalSolution src tgt ∧
    solveAffine src tgt = AffineParams.mk (solveAffineX src tgt 0)
      (solveAffineX src tgt 1) (solveAffineX src tgt 2) (solveAffineX src tgt 3)
      (solveAffineX src tgt 4) (solveAffineX src tgt 5) ∧
    ∀ u : Fin 6 → K,
      residSq (designMatrix src) (targetVec tgt) (solveAffineX src tgt) ≤
        residSq (designMatrix src) (targetVec tgt) u :=
  ⟨solveAffineX_eq src tgt hdet, rfl,
   fun u => least_squares_min _ _ _ (solveAffineX_normal src tgt hdet) u⟩

set_option maxRecDepth 2000 in
/-- Witness for C1 at the concrete unit-square corners over `ℚ`. -/
theorem C1_witness :
    gramInvertible (fitSrcQuad (2 : ℚ) 2) ∧
    (solveAffineX (fitSrcQuad (2 : ℚ) 2) (fitSrcQuad 2 2) =
      normalSolution (fitSrcQuad (2 : ℚ) 2) (fitSrcQuad 2 2) ∧
    solveAffine (fitSrcQuad (2 : ℚ) 2) (fitSrcQuad 2 2) =
      AffineParams.mk (solveAffineX (fitSrcQuad (2 : ℚ) 2) (fitSrcQuad 2 2) 0)
        (solveAffineX (fitSrcQuad (2 : ℚ) 2) (fitSrcQuad 2 2) 1)
        (solveAffineX (fitSrcQuad (2 : ℚ) 2) (fitSrcQuad 2 2) 2)
        (solveAffineX (fitSrcQuad (2 : ℚ) 2) (fitSrcQuad 2 2) 3)
        (solveAffineX (fitSrcQuad (2 : ℚ) 2) (fitSrcQuad 2 2) 4)
        (solveAffineX (fitSrcQuad (2 : ℚ) 2) (fitSrcQuad 2 2) 5) ∧
    ∀ u : Fin 6 → ℚ,
      residSq (designMatrix (fitSrcQuad (2 : ℚ) 2)) (targetVec (fitSrcQuad 2 2))
          (solveAffineX (fitSrcQuad (2 : ℚ) 2) (fitSrcQuad 2 2)) ≤
        residSq (designMatrix (fitSrcQuad (2 : ℚ) 2))
          (targetVec (fitSrcQuad 2 2)) u) := by
  have hxx : (fitSrcQuad (2 : ℚ) 2 0).x * (fitSrcQuad (2 : ℚ) 2 0).x
      + (fitSrcQuad (2 : ℚ) 2 1).x * (fitSrcQuad (2 : ℚ) 2 1).x
      + (fitSrcQuad (2 : ℚ) 2 2).x * (fitSrcQuad (2 : ℚ) 2 2).x
      + (fitSrcQuad (2 : ℚ) 2 3).x * (fitSrcQuad (2 : ℚ) 2 3).x = 2 ^ 2 := by
    norm_num [fitSrcQuad]
  have hyy : (fitSrcQuad (2 : ℚ) 2 0).y * (fitSrcQuad (2 : ℚ) 2 0).y
      + (fitSrcQuad (2 : ℚ) 2 1).y * (fitSrcQuad (2 : ℚ) 2 1).y
      + (fitSrcQuad (2 : ℚ) 2 2).y * (fitSrcQuad (2 : ℚ) 2 2).y
      + (fitSrcQuad (2 : ℚ) 2 3).y * (fitSrcQuad (2 : ℚ) 2 3).y = 2 ^ 2 := by
    norm_num [fitSrcQuad]
  have hx : (fitSrcQuad (2 : ℚ) 2 0).x + (fitSrcQuad (2 : ℚ) 2 1).x
      + (fitSrcQuad (2 : ℚ) 2 2).x + (fitSrcQuad (2 : ℚ) 2 3).x = 0 := by
    norm_num [fitSrcQuad]
  have hy : (fitSrcQuad (2 : ℚ) 2 0).y + (fitSrcQuad (2 : ℚ) 2 1).y
      + (fitSrcQuad (2 : ℚ) 2 2).y + (fitSrcQuad (2 : ℚ) 2 3).y = 0 := by
    norm_num [fitSrcQuad]
  have hxy : (fitSrcQuad (2 : ℚ) 2 0).x * (fitSrcQuad (2 : ℚ) 2 0).y
      + (fitSrcQuad (2 : ℚ) 2 1).x * (fitSrcQuad (2 : ℚ) 2 1).y
      + (fitSrcQuad (2 : ℚ) 2 2).x * (fitSrcQuad (2 : ℚ) 2 2).y
      + (fitSrcQuad (2 : ℚ) 2 3).x * (fitSrcQuad (2 : ℚ) 2 3).y = 0 := by
    norm_num [fitSrcQuad]
  have hdet : gramInvertible (fitSrcQuad (2 : ℚ) 2) :=
    gram_isUnit 2 2 (fitSrcQuad (2 : ℚ) 2) hxx hyy hx hy hxy
      (by norm_num) (by norm_num)
  exact ⟨hdet, C1_solveAffine_least_squares (fitSrcQuad 2 2) (fitSrcQuad 2 2) hdet⟩

/-! ## Claim C2: similarity transforms are recovered exactly -/

theorem hypot_similarity (s t u : ℝ) (hs : 0 ≤ s) (htu : t ^ 2 + u ^ 2 = 1) :
    hypot (s * t) (s * u) = s := by
  unfold hypot
  rw [show (s * t) ^ 2 + (s * u) ^ 2 = s ^ 2 by linear_combination s ^ 2 * htu]
  exact Real.sqrt_sq hs

/-- C2: fitting a similarity image of the source rectangle (corners in any
order `σ`) recovers translation, rotation modulo `2π` and the uniform scale
exactly; for `θ = 0` the rotation is exactly `0`. -/
theorem C2_similarity_fit (W H s θ dx dy : ℝ) (σ : Equiv.Perm (Fin 4))
    (src tgt : Fin 4 → Point ℝ) (hW : 0 < W) (hH : 0 < H) (hs : 0 < s)
    (hsrc : src = fun k => fitSrcQuad W H (σ k))
    (htgt : tgt = fun k => similarity s θ dx dy (fitSrcQuad W H (σ k))) :
    let pose := decomposeAffineToTRS (solveAffine src tgt)
    pose.position.x = dx ∧ pose.position.y = dy ∧
    (pose.rotationZ : Real.Angle) = (θ : Real.Angle) ∧
    pose.scale.x = s ∧ pose.scale.y = s ∧
    (θ = 0 → pose.rotationZ = 0) := by
  subst hsrc
  subst htgt
  intro pose
  have hx2 : ∀ t : Fin 4,
      (fitSrcQuad W H t).x * (fitSrcQuad W H t).x = W ^ 2 / 4 := by
    intro t
    fin_cases t <;> norm_num [fitSrcQuad] <;> ring
  have hy2 : ∀ t : Fin 4,
      (fitSrcQuad W H t).y * (fitSrcQuad W H t).y = H ^ 2 / 4 := by
    intro t
    fin_cases t <;> norm_num [fitSrcQuad] <;> ring
  have hdet : gramInvertible (fun k => fitSrcQuad W H (σ k)) := by
    apply gram_isUnit W H
    · rw [hx2, hx2, hx2, hx2]
      ring
    · rw [hy2, hy2, hy2, hy2]
      ring
    · have h := Equiv.sum_comp σ (fun t => (fitSrcQuad W H t).x)
      rw [Fin.sum_univ_four, Fin.sum_univ_four] at h
      rw [h]
      norm_num [fitSrcQuad]
      ring
    · have h := Equiv.sum_comp σ (fun t => (fitSrcQuad W H t).y)
      rw [Fin.sum_univ_four, Fin.sum_univ_four] at h
      rw [h]
      norm_num [fitSrcQuad]
      ring
    · have h := Equiv.sum_comp σ
        (fun t => (fitSrcQuad W H t).x * (fitSrcQuad W H t).y)
      rw [Fin.sum_univ_four, Fin.sum_univ_four] at h
      rw [h]
      norm_num [fitSrcQuad]
      ring
    · exact ne_of_gt hW
    · exact ne_of_gt hH
  have hAv : Matrix.mulVec (designMatrix (fun k => fitSrcQuad W H (σ k)))
      ![s * Real.cos θ, -(s * Real.sin θ), dx, s * Real.sin θ,
        s * Real.cos θ, dy]
      = targetVec (fun k => similarity s θ dx dy (fitSrcQuad W H (σ k))) := by
    funext i
    fin_cases i <;>
      norm_num [Matrix.mulVec, Matrix.dotProduct, Fin.sum_univ_succ,
        designMatrix, targetVec, similarity, Fin.val_succ] <;> ring
  have hX := solveAffineX_exact _ _ _ hdet hAv
  have hrec : solveAffine (fun k => fitSrcQuad W H (σ k))
      (fun k => similarity s θ dx dy (fitSrcQuad W H (σ k))) =
      AffineParams.mk (s * Real.cos θ) (-(s * Real.sin θ)) dx
        (s * Real.sin θ) (s * Real.cos θ) dy := by
    show AffineParams.mk _ _ _ _ _ _ = _
    rw [hX]
    rfl
  have hpose : pose = decomposeAffineToTRS (AffineParams.mk (s * Real.cos θ)
      (-(s * Real.sin θ)) dx (s * Real.sin θ) (s * Real.cos θ) dy) := by
    show decomposeAffineToTRS _ = _
    rw [hrec]
  have hsx : hypot (s * Real.cos θ) (s * Real.sin θ) = s :=
    hypot_similarity s _ _ hs.le (by
      have h := Real.sin_sq_add_cos_sq θ
      linarith)
  have hsy : hypot (-(s * Real.sin θ)) (s * Real.cos θ) = s := by
    have h : hypot (s * (-Real.sin θ)) (s * Real.cos θ) = s :=
      hypot_similarity s _ _ hs.le (by
        have h := Real.sin_sq_add_cos_sq θ
        linarith [sq_abs (Real.sin θ)])
    rw [show s * -Real.sin θ = -(s * Real.sin θ) by ring] at h
    exact h
  have hrot : (atan2 (s * Real.sin θ) (s * Real.cos θ) : Real.Angle) =
      (θ : Real.Angle) := by
    unfold atan2
    rw [show ((s * Real.cos θ : ℝ) : ℂ) + ((s * Real.sin θ : ℝ) : ℂ) *
        Complex.I = (s : ℂ) * ((Real.cos θ : ℝ) + (Real.sin θ : ℝ) *
          Complex.I) by push_cast; ring]
    have h := Complex.arg_mul_cos_add_sin_mul_I_coe_angle hs (θ : Real.Angle)
    rw [Real.Angle.cos_coe, Real.Angle.sin_coe] at h
    exact h
  rw [hpose]
  refine ⟨rfl, rfl, ?_, ?_, ?_, ?_⟩
  · exact hrot
  · exact hsx
  · exact hsy
  · intro h0
    subst h0
    show atan2 (s * Real.sin 0) (s * Real.cos 0) = 0
    rw [Real.sin_zero, Real.cos_zero, mul_zero, mul_one]
    unfold atan2
    rw [Complex.ofReal_zero, zero_mul, add_zero]
    exact Complex.arg_ofReal_of_nonneg hs.le

/-- Witness for C2: unit square, identity permutation, the identity
similarity (`s = 1`, `θ = 0`, no translation). -/
theorem C2_witness :
    let pose := decomposeAffineToTRS (solveAffine
      (fun k => fitSrcQuad 1 1 ((Equiv.refl (Fin 4)) k))
      (fun k => similarity 1 0 0 0 (fitSrcQuad 1 1 ((Equiv.refl (Fin 4)) k))))
    pose.position.x = 0 ∧ pose.position.y = 0 ∧
    (pose.rotationZ : Real.Angle) = ((0 : ℝ) : Real.Angle) ∧
    pose.scale.x = 1 ∧ pose.scale.y = 1 ∧
    ((0 : ℝ) = 0 → pose.rotationZ = 0) :=
  C2_similarity_fit 1 1 1 0 0 0 (Equiv.refl (Fin 4)) _ _ one_pos one_pos
    one_pos rfl rfl

/-! ## The ordering pass: structure of orderQuad -/

theorem bestStartGo_spec (dflt : Point K) :
    ∀ (l : List (Point K)) (idx bi : ℕ) (b : WithTop K),
      (bestStartGo l idx bi b = bi ∧
        ∀ p ∈ l, b ≤ ((p.x + p.y : K) : WithTop K)) ∨
      ∃ k, k < l.length ∧ bestStartGo l idx bi b = idx + k ∧
        (((l.getD k dflt).x + (l.getD k dflt).y : K) : WithTop K) < b ∧
        ∀ p ∈ l, (((l.getD k dflt).x + (l.getD k dflt).y : K) : WithTop K)
          ≤ ((p.x + p.y : K) : WithTop K) := by
  intro l
  induction l with
  | nil =>
    intro idx bi b
    left
    exact ⟨rfl, by simp⟩
  | cons p t ih =>
    intro idx bi b
    by_cases hvb : ((p.x + p.y : K) : WithTop K) < b
    · rw [show bestStartGo (p :: t) idx bi b =
        bestStartGo t (idx + 1) idx ((p.x + p.y : K) : WithTop K) from by
          rw [bestStartGo, if_pos hvb]]
      rcases ih (idx + 1) idx ((p.x + p.y : K) : WithTop K) with
        ⟨heq, hall⟩ | ⟨k, hk, heq, hlt, hmin⟩
      · right
        refine ⟨0, Nat.succ_pos _, by rw [heq, Nat.add_zero], by simpa using hvb, ?_⟩
        intro q hq
        rcases List.mem_cons.mp hq with rfl | hq
        · simp
        · simpa using hall q hq
      · right
        refine ⟨k + 1, by simp only [List.length_cons]; omega, by rw [heq]; omega, ?_, ?_⟩
        · simp only [List.getD_cons_succ]
          exact lt_trans hlt hvb
        · intro q hq
          rcases List.mem_cons.mp hq with rfl | hq
          · simp only [List.getD_cons_succ]
            exact le_of_lt hlt
          · simpa using hmin q hq
    · rw [show bestStartGo (p :: t) idx bi b =
        bestStartGo t (idx + 1) bi b from by
          rw [bestStartGo, if_neg hvb]]
      rcases ih (idx + 1) bi b with ⟨heq, hall⟩ | ⟨k, hk, heq, hlt, hmin⟩
      · left
        refine ⟨heq, ?_⟩
        intro q hq
        rcases List.mem_cons.mp hq with rfl | hq
        · exact not_lt.mp hvb
        · exact hall q hq
      · right
        refine ⟨k + 1, by simp only [List.length_cons]; omega, by rw [heq]; omega, ?_, ?_⟩
        · simpa using hlt
        · intro q hq
          rcases List.mem_cons.mp hq with rfl | hq
          · simp only [List.getD_cons_succ]
            exact le_of_lt (lt_of_lt_of_le hlt (not_lt.mp hvb))
          · simpa using hmin q hq

theorem orderQuad_rotate (at2 : K → K → K) (pts : List (Point K))
    (h4 : pts.length = 4) :
    ∃ k, k < 4 ∧
      orderQuad at2 pts = (List.insertionSort
        (fun a b => quadKey at2 (centroidX pts) (centroidY pts) a ≤
          quadKey at2 (centroidX pts) (centroidY pts) b) pts).rotate k ∧
      ∀ q ∈ pts,
        ((List.insertionSort
          (fun a b => quadKey at2 (centroidX pts) (centroidY pts) a ≤
            quadKey at2 (centroidX pts) (centroidY pts) b) pts).getD k
              (⟨0, 0⟩ : Point K)).x +
          ((List.insertionSort
            (fun a b => quadKey at2 (centroidX pts) (centroidY pts) a ≤
              quadKey at2 (centroidX pts) (centroidY pts) b) pts).getD k
                (⟨0, 0⟩ : Point K)).y ≤ q.x + q.y := by
  set s := List.insertionSort
    (fun a b => quadKey at2 (centroidX pts) (centroidY pts) a ≤
      quadKey at2 (centroidX pts) (centroidY pts) b) pts with hs
  have hperm : s.Perm pts := List.perm_insertionSort _ pts
  have hslen : s.length = 4 := by rw [hperm.length_eq, h4]
  have hoq : orderQuad at2 pts =
      [s.getD (bestStartGo s 0 0 ⊤) (⟨0, 0⟩ : Point K),
       s.getD ((bestStartGo s 0 0 ⊤ + 1) % 4) (⟨0, 0⟩ : Point K),
       s.getD ((bestStartGo s 0 0 ⊤ + 2) % 4) (⟨0, 0⟩ : Point K),
       s.getD ((bestStartGo s 0 0 ⊤ + 3) % 4) (⟨0, 0⟩ : Point K)] := by
    rw [hs]
    rfl
  rcases bestStartGo_spec (⟨0, 0⟩ : Point K) s 0 0 ⊤ with
    ⟨heq, hall⟩ | ⟨k, hk, heq, hlt, hmin⟩
  · exfalso
    obtain ⟨p, hp⟩ : ∃ p, p ∈ s := by
      have hne : s ≠ [] := by
        intro hnil
        rw [hnil] at hslen
        simp at hslen
      exact List.exists_mem_of_ne_nil s hne
    have := hall p hp
    simp at this
  · rw [hslen] at hk
    refine ⟨k, hk, ?_, ?_⟩
    · rw [hoq, heq]
      obtain ⟨a, b, c, d, habcd⟩ : ∃ a b c d, s = [a, b, c, d] := by
        match s, hslen with
        | [a, b, c, d], _ => exact ⟨a, b, c, d, rfl⟩
      rw [habcd]
      interval_cases k <;> rfl
    · intro q hq
      have hq' : q ∈ s := hperm.mem_iff.mpr hq
      have h := hmin q hq'
      rw [heq] at hoq
      have hcoe : (((s.getD k (⟨0, 0⟩ : Point K)).x +
          (s.getD k (⟨0, 0⟩ : Point K)).y : K) : WithTop K)
          ≤ ((q.x + q.y : K) : WithTop K) := h
      exact_mod_cast hcoe

/-- C4: `orderQuad` returns the four points sorted by ascending
`atan2(y - cy, x - cx)` about the centroid, cyclically rotated so that the
output starts at a point minimizing `x + y`. -/
theorem C4_orderQuad_sorted_rotation (at2 : K → K → K) (p0 p1 p2 p3 : Point K) :
    ∃ (s : List (Point K)) (k : ℕ),
      List.Perm [p0, p1, p2, p3] s ∧
      s.Sorted (fun a b =>
        quadKey at2 (centroidX [p0, p1, p2, p3])
          (centroidY [p0, p1, p2, p3]) a ≤
        quadKey at2 (centroidX [p0, p1, p2, p3])
          (centroidY [p0, p1, p2, p3]) b) ∧
      k < 4 ∧ orderQuad at2 [p0, p1, p2, p3] = s.rotate k ∧
      ∀ q ∈ [p0, p1, p2, p3],
        (s.getD k (⟨0, 0⟩ : Point K)).x + (s.getD k (⟨0, 0⟩ : Point K)).y ≤
          q.x + q.y := by
  obtain ⟨k, hk, hoq, hmin⟩ := orderQuad_rotate at2 [p0, p1, p2, p3] rfl
  haveI hTot : IsTotal (Point K) (fun a b =>
      quadKey at2 (centroidX [p0, p1, p2, p3])
        (centroidY [p0, p1, p2, p3]) a ≤
      quadKey at2 (centroidX [p0, p1, p2, p3])
        (centroidY [p0, p1, p2, p3]) b) := ⟨fun a b => le_total _ _⟩
  haveI hTr : IsTrans (Point K) (fun a b =>
      quadKey at2 (centroidX [p0, p1, p2, p3])
        (centroidY [p0, p1, p2, p3]) a ≤
      quadKey at2 (centroidX [p0, p1, p2, p3])
        (centroidY [p0, p1, p2, p3]) b) := ⟨fun a b c => le_trans⟩
  exact ⟨_, k, (List.perm_insertionSort _ _).symm,
    List.sorted_insertionSort _ _, hk, hoq, hmin⟩

/-- C10: on a 4-point list, `orderQuad` returns a permutation of its input
(each input point occurs exactly once in the output); the embedding is a
pure function of an unmodified copy of the input, as in the source, which
sorts a `.slice()` copy. -/
theorem C10_orderQuad_perm (at2 : K → K → K) (pts : List (Point K))
    (h4 : pts.length = 4) : List.Perm (orderQuad at2 pts) pts := by
  obtain ⟨k, hk, hoq, hmin⟩ := orderQuad_rotate at2 pts h4
  rw [hoq]
  exact (List.rotate_perm _ _).trans (List.perm_insertionSort _ _)

/-- Witness for C10 on a concrete rational quad. -/
theorem C10_witness :
    List.Perm
      (orderQuad (fun y _ => y)
        ([⟨0, 0⟩, ⟨1, 0⟩, ⟨0, 1⟩, ⟨1, 1⟩] : List (Point ℚ)))
      ([⟨0, 0⟩, ⟨1, 0⟩, ⟨0, 1⟩, ⟨1, 1⟩] : List (Point ℚ)) :=
  C10_orderQuad_perm (fun y _ => y) _ rfl

/-! ## Claim C5: invariance of orderQuad under permutations of the input -/

theorem foldl_add_x (l : List (Point K)) :
    ∀ init : K, l.foldl (fun s p => s + p.x) init
      = init + (l.map Point.x).sum := by
  induction l with
  | nil => intro init; simp
  | cons p t ih =>
    intro init
    rw [List.foldl_cons, ih, List.map_cons, List.sum_cons]
    ring

theorem foldl_add_y (l : List (Point K)) :
    ∀ init : K, l.foldl (fun s p => s + p.y) init
      = init + (l.map Point.y).sum := by
  induction l with
  | nil => intro init; simp
  | cons p t ih =>
    intro init
    rw [List.foldl_cons, ih, List.map_cons, List.sum_cons]
    ring

theorem centroidX_perm {l l' : List (Point K)} (h : List.Perm l l') :
    centroidX l = centroidX l' := by
  unfold centroidX
  rw [foldl_add_x, foldl_add_x, (h.map Point.x).sum_eq, h.length_eq]

theorem centroidY_perm {l l' : List (Point K)} (h : List.Perm l l') :
    centroidY l = centroidY l' := by
  unfold centroidY
  rw [foldl_add_y, foldl_add_y, (h.map Point.y).sum_eq, h.length_eq]

theorem eq_of_perm_of_sorted_key {α : Type} (key : α → K) :
    ∀ (l₁ l₂ : List α), List.Perm l₁ l₂ →
      l₁.Sorted (fun a b => key a ≤ key b) →
      l₂.Sorted (fun a b => key a ≤ key b) →
      (∀ a ∈ l₁, ∀ b ∈ l₁, key a = key b → a = b) → l₁ = l₂ := by
  intro l₁
  induction l₁ with
  | nil =>
    intro l₂ hp _ _ _
    exact hp.nil_eq
  | cons a t ih =>
    intro l₂ hp hs₁ hs₂ hinj
    cases l₂ with
    | nil =>
      have := hp.length_eq
      simp at this
    | cons b t₂ =>
      have hbmem : b ∈ a :: t := hp.mem_iff.mpr (List.mem_cons_self b t₂)
      have hamem : a ∈ b :: t₂ := hp.mem_iff.mp (List.mem_cons_self a t)
      have h1 : key a ≤ key b := by
        rcases List.mem_cons.mp hbmem with hb | hb
        · rw [hb]
        · exact (List.sorted_cons.mp hs₁).1 b hb
      have h2 : key b ≤ key a := by
        rcases List.mem_cons.mp hamem with ha | ha
        · rw [ha]
        · exact (List.sorted_cons.mp hs₂).1 a ha
      have hab : a = b := hinj a (List.mem_cons_self a t) b hbmem
        (le_antisymm h1 h2)
      subst hab
      rw [ih t₂ (hp.cons_inv) (List.sorted_cons.mp hs₁).2
        (List.sorted_cons.mp hs₂).2
        (fun a' ha' b' hb' => hinj a' (List.mem_cons_of_mem _ ha') b'
          (List.mem_cons_of_mem _ hb'))]

/-- C5: on a quad whose angular keys are pairwise distinct and whose
minimizer of `x + y` is unique, `orderQuad` produces the same output for any
permutation of the input points (so the solved Pose does not depend on the
order in which the points were clicked). -/
theorem C5_orderQuad_order_invariance (at2 : K → K → K)
    (l l' : List (Point K)) (hperm : List.Perm l' l) (h4 : l.length = 4)
    (hinj : ∀ a ∈ l, ∀ b ∈ l,
      quadKey at2 (centroidX l) (centroidY l) a =
        quadKey at2 (centroidX l) (centroidY l) b → a = b)
    (huniq : ∀ a ∈ l, ∀ b ∈ l, (∀ p ∈ l, a.x + a.y ≤ p.x + p.y) →
      (∀ p ∈ l, b.x + b.y ≤ p.x + p.y) → a = b) :
    orderQuad at2 l' = orderQuad at2 l := by
  have hcx : centroidX l' = centroidX l := centroidX_perm hperm
  have hcy : centroidY l' = centroidY l := centroidY_perm hperm
  simp only [orderQuad]
  rw [hcx, hcy]
  have hs : List.insertionSort
      (fun a b => quadKey at2 (centroidX l) (centroidY l) a ≤
        quadKey at2 (centroidX l) (centroidY l) b) l' =
      List.insertionSort
        (fun a b => quadKey at2 (centroidX l) (centroidY l) a ≤
          quadKey at2 (centroidX l) (centroidY l) b) l := by
    haveI hTot : IsTotal (Point K) (fun a b =>
        quadKey at2 (centroidX l) (centroidY l) a ≤
        quadKey at2 (centroidX l) (centroidY l) b) := ⟨fun a b => le_total _ _⟩
    haveI hTr : IsTrans (Point K) (fun a b =>
        quadKey at2 (centroidX l) (centroidY l) a ≤
        quadKey at2 (centroidX l) (centroidY l) b) := ⟨fun a b c => le_trans⟩
    apply eq_of_perm_of_sorted_key (quadKey at2 (centroidX l) (centroidY l))
    · exact (List.perm_insertionSort _ _).trans
        (hperm.trans (List.perm_insertionSort _ l).symm)
    · exact List.sorted_insertionSort _ _
    · exact List.sorted_insertionSort _ _
    · intro a ha b hb
      have ha' : a ∈ l := hperm.mem_iff.mp (by simpa using ha)
      have hb' : b ∈ l := hperm.mem_iff.mp (by simpa using hb)
      exact hinj a ha' b hb'
  rw [hs]

/-- Witness for C5 on a concrete rational quad and a cyclic shift of it. -/
theorem C5_witness :
    orderQuad (fun y x => 3 * y + x)
        ([⟨0, 2⟩, ⟨-1, 0⟩, ⟨0, -2⟩, ⟨1, 0⟩] : List (Point ℚ)) =
      orderQuad (fun y x => 3 * y + x)
        ([⟨1, 0⟩, ⟨0, 2⟩, ⟨-1, 0⟩, ⟨0, -2⟩] : List (Point ℚ)) := by
  apply C5_orderQuad_order_invariance (fun y x => 3 * y + x)
    ([⟨1, 0⟩, ⟨0, 2⟩, ⟨-1, 0⟩, ⟨0, -2⟩] : List (Point ℚ))
  · exact (show ([⟨1, 0⟩, ⟨0, 2⟩, ⟨-1, 0⟩, ⟨0, -2⟩] : List (Point ℚ)).rotate 1
        = [⟨0, 2⟩, ⟨-1, 0⟩, ⟨0, -2⟩, ⟨1, 0⟩] from rfl) ▸
      List.rotate_perm ([⟨1, 0⟩, ⟨0, 2⟩, ⟨-1, 0⟩, ⟨0, -2⟩] : List (Point ℚ)) 1
  · rfl
  · intro a ha b hb
    fin_cases ha <;> fin_cases hb <;>
      norm_num [quadKey, centroidX, centroidY]
  · intro a ha b hb h1 h2
    have ha2 := h1 (⟨0, -2⟩ : Point ℚ) (by simp)
    have hb2 := h2 (⟨0, -2⟩ : Point ℚ) (by simp)
    fin_cases ha <;> fin_cases hb <;>
      first
        | rfl
        | (exfalso; norm_num at ha2 hb2)

/-! ## C3: the canonical source corner order of `applyFourPointFit` -/

/-- Counterexample to C3: the source corners built by `applyFourPointFit`
are NOT `[top-left, top-right, bottom-right, bottom-left]` in the y-up world
space (already at `W = H = 2` the first corner is the bottom-left
`(-1, -1)`, not the top-left `(-1, 1)` the specification asserts). -/
theorem C3_counterexample :
    fitSrcQuad (2 : ℚ) 2 ≠ specSrcQuad 2 2 ∧
    fitSrcQuad (2 : ℚ) 2 0 = (⟨-1, -1⟩ : Point ℚ) ∧
    specSrcQuad (2 : ℚ) 2 0 = (⟨-1, 1⟩ : Point ℚ) := by
  refine ⟨fun h => ?_, by norm_num [fitSrcQuad], by norm_num [specSrcQuad]⟩
  have h0 := congrFun h 0
  simp only [fitSrcQuad, specSrcQuad, Matrix.cons_val_zero, Point.mk.injEq] at h0
  norm_num at h0

/-- C3 (amended): in the y-up world space that `screenToWorld` maps into
(larger screen `y` gives strictly smaller world `y`), the source corners
built by `applyFourPointFit` are, in order, bottom-left, bottom-right,
top-right, top-left — the REVERSE of the specified `[TL, TR, BR, BL]`
traversal, so the source quad pairs index-for-index with `[BL, BR, TR, TL]`
rather than with `[TL, TR, BR, BL]`. -/
theorem C3_src_corner_order (W H : K) (hW : 0 < W) (hH : 0 < H) :
    fitSrcQuad W H ≠ specSrcQuad W H ∧
    fitSrcQuad W H
      = ![⟨-W / 2, -H / 2⟩, ⟨W / 2, -H / 2⟩, ⟨W / 2, H / 2⟩, ⟨-W / 2, H / 2⟩] ∧
    ((fitSrcQuad W H 0).y < 0 ∧ (fitSrcQuad W H 0).x < 0) ∧
    ((fitSrcQuad W H 3).y = H / 2 ∧ 0 < (fitSrcQuad W H 3).y) ∧
    (∀ dispW dispH imgW imgH : K, 0 < dispH → 0 < imgW → 0 < imgH →
      ∀ p q : Point K, p.y < q.y →
        (screenToWorld dispW dispH imgW imgH q).y <
          (screenToWorld dispW dispH imgW imgH p).y) ∧
    (∀ k : Fin 4, specSrcQuad W H k = fitSrcQuad W H (3 - k)) := by
  refine ⟨fun h => ?_, rfl, ?_, ?_, ?_, ?_⟩
  · have h0 := congrFun h 0
    simp only [fitSrcQuad, specSrcQuad, Matrix.cons_val_zero,
      Point.mk.injEq] at h0
    have : -H / 2 = H / 2 := h0.2
    have : H = 0 := by linarith
    exact absurd this (ne_of_gt hH)
  · constructor
    · show -H / 2 < 0
      linarith
    · show -W / 2 < 0
      linarith
  · refine ⟨rfl, ?_⟩
    show 0 < H / 2
    linarith
  · intro dispW dispH imgW imgH hdH hiW hiH p q hpq
    simp only [screenToWorld]
    have hplane : (0 : K) < 120 * (imgH / imgW) := by positivity
    have hdiv : p.y / dispH < q.y / dispH := by
      exact div_lt_div_of_pos_right hpq hdH
    nlinarith [mul_lt_mul_of_pos_right hdiv hplane]
  · intro k
    fin_cases k <;> rfl

/-- Witness for C3 (amended) at `W = H = 2` over `ℚ`: the hypotheses
`0 < W`, `0 < H` hold and the corner-order conclusion follows. -/
theorem C3_witness :
    (0 : ℚ) < 2 ∧
    (fitSrcQuad (2 : ℚ) 2 ≠ specSrcQuad 2 2 ∧
      fitSrcQuad (2 : ℚ) 2 = ![⟨-2 / 2, -2 / 2⟩, ⟨2 / 2, -2 / 2⟩,
        ⟨2 / 2, 2 / 2⟩, ⟨-2 / 2, 2 / 2⟩] ∧
      ((fitSrcQuad (2 : ℚ) 2 0).y < 0 ∧ (fitSrcQuad (2 : ℚ) 2 0).x < 0) ∧
      ((fitSrcQuad (2 : ℚ) 2 3).y = 2 / 2 ∧ 0 < (fitSrcQuad (2 : ℚ) 2 3).y) ∧
      (∀ dispW dispH imgW imgH : ℚ, 0 < dispH → 0 < imgW → 0 < imgH →
        ∀ p q : Point ℚ, p.y < q.y →
          (screenToWorld dispW dispH imgW imgH q).y <
            (screenToWorld dispW dispH imgW imgH p).y) ∧
      (∀ k : Fin 4, specSrcQuad (2 : ℚ) 2 k = fitSrcQuad (2 : ℚ) 2 (3 - k))) :=
  ⟨by norm_num, C3_src_corner_order 2 2 (by norm_num) (by norm_num)⟩

/-! ## C6–C9: the orchestration around the solver -/

/-- C6: with exactly 4 picked points — however degenerate — the fit commits
a `signScale` of at least `0.05`, and every division of the Gauss–Jordan
elimination inside `solveAffine` is by a nonzero value (a zero pivot falls
back to `1e-9`), so the computation is total. -/
theorem C6_no_throw {Ω : Type} (dispW dispH w h : ℝ) (S : AppState Ω)
    (hlen : S.fitPoints.length = 4) :
    0.05 ≤ (applyFourPointFit dispW dispH w h S).signScale ∧
    ∀ (L : Matrix (Fin 6) (Fin 6) ℝ) (c : Fin 6), gjDivisor L c ≠ 0 := by
  constructor
  · unfold applyFourPointFit
    rw [if_neg (not_not_intro hlen)]
    exact le_max_left _ _
  · exact fun L c => gjDivisor_ne_zero L c

/-- Witness for C6 on four collinear points: the scale floor still holds. -/
theorem C6_witness :
    0.05 ≤ (applyFourPointFit 1 1 1 1
      (⟨[⟨0, 0⟩, ⟨1, 1⟩, ⟨2, 2⟩, ⟨3, 3⟩], true, 0, 0, 0, 1, 1, 1, 1, ()⟩ :
        AppState Unit)).signScale :=
  (C6_no_throw 1 1 1 1
    (⟨[⟨0, 0⟩, ⟨1, 1⟩, ⟨2, 2⟩, ⟨3, 3⟩], true, 0, 0, 0, 1, 1, 1, 1, ()⟩ :
      AppState Unit) rfl).1

/-- C7: with fewer (or more) than 4 points stored, `applyFourPointFit`
returns early and the whole application state is unchanged. -/
theorem C7_insufficient_points {Ω : Type} (dispW dispH w h : ℝ)
    (S : AppState Ω) (hlen : S.fitPoints.length ≠ 4) :
    applyFourPointFit dispW dispH w h S = S := by
  unfold applyFourPointFit
  rw [if_pos hlen]

/-- Witness for C7: an empty point list leaves a concrete state unchanged. -/
theorem C7_witness :
    applyFourPointFit 1 1 1 1
        (⟨[], false, 0, 0, 0, 1, 1, 1, 1, ()⟩ : AppState Unit) =
      (⟨[], false, 0, 0, 0, 1, 1, 1, 1, ()⟩ : AppState Unit) :=
  C7_insufficient_points 1 1 1 1
    (⟨[], false, 0, 0, 0, 1, 1, 1, 1, ()⟩ : AppState Unit) (by simp)

/-- C8: with exactly 4 points, `applyFourPointFit` performs one atomic state
update: `signTX`, `signTY`, `signRZ` and `signScale` are all replaced from
the solved Pose together, `fitMode` becomes `false`, `fitPoints` becomes
`[]`, and every other field of the state (the frame, including `rest`) is
unchanged. -/
theorem C8_atomic_update {Ω : Type} (dispW dispH w h : ℝ) (S : AppState Ω)
    (hlen : S.fitPoints.length = 4) :
    applyFourPointFit dispW dispH w h S =
      { S with
        signTX := (fitPose dispW dispH w h S).position.x
        signTY := (fitPose dispW dispH w h S).position.y
        signRZ := (fitPose dispW dispH w h S).rotationZ
        signScale := max 0.05 (jsOr (((fitPose dispW dispH w h S).scale.x +
          (fitPose dispW dispH w h S).scale.y) / 2) 1)
        fitMode := false
        fitPoints := [] } := by
  unfold applyFourPointFit
  rw [if_neg (not_not_intro hlen)]

/-- Witness for C8 on a concrete 4-point state. -/
theorem C8_witness :
    applyFourPointFit 1 1 1 1
        (⟨[⟨0, 0⟩, ⟨1, 0⟩, ⟨1, 1⟩, ⟨0, 1⟩], true, 0, 0, 0, 1, 1, 1, 1, ()⟩ :
          AppState Unit) =
      { (⟨[⟨0, 0⟩, ⟨1, 0⟩, ⟨1, 1⟩, ⟨0, 1⟩], true, 0, 0, 0, 1, 1, 1, 1, ()⟩ :
          AppState Unit) with
        signTX := (fitPose 1 1 1 1
          (⟨[⟨0, 0⟩, ⟨1, 0⟩, ⟨1, 1⟩, ⟨0, 1⟩], true, 0, 0, 0, 1, 1, 1, 1, ()⟩ :
            AppState Unit)).position.x
        signTY := (fitPose 1 1 1 1
          (⟨[⟨0, 0⟩, ⟨1, 0⟩, ⟨1, 1⟩, ⟨0, 1⟩], true, 0, 0, 0, 1, 1, 1, 1, ()⟩ :
            AppState Unit)).position.y
        signRZ := (fitPose 1 1 1 1
          (⟨[⟨0, 0⟩, ⟨1, 0⟩, ⟨1, 1⟩, ⟨0, 1⟩], true, 0, 0, 0, 1, 1, 1, 1, ()⟩ :
            AppState Unit)).rotationZ
        signScale := max 0.05 (jsOr (((fitPose 1 1 1 1
          (⟨[⟨0, 0⟩, ⟨1, 0⟩, ⟨1, 1⟩, ⟨0, 1⟩], true, 0, 0, 0, 1, 1, 1, 1, ()⟩ :
            AppState Unit)).scale.x + (fitPose 1 1 1 1
          (⟨[⟨0, 0⟩, ⟨1, 0⟩, ⟨1, 1⟩, ⟨0, 1⟩], true, 0, 0, 0, 1, 1, 1, 1, ()⟩ :
            AppState Unit)).scale.y) / 2) 1)
        fitMode := false
        fitPoints := [] } :=
  C8_atomic_update 1 1 1 1
    (⟨[⟨0, 0⟩, ⟨1, 0⟩, ⟨1, 1⟩, ⟨0, 1⟩], true, 0, 0, 0, 1, 1, 1, 1, ()⟩ :
      AppState Unit) rfl

/-- C9: the click handler's updated point list never exceeds 4 entries,
whatever was stored before and wherever the click lands. -/
theorem C9_addPoint_le_four (points : List (Point K))
    (clientX clientY rectLeft rectTop : K) :
    (addPoint points clientX clientY rectLeft rectTop).length ≤ 4 := by
  simp only [addPoint, List.length_take]
  exact min_le_left _ _

end SignFit
